import Mathlib

/-!
Shallow embedding of the vector-index subsystem of the Clinical-Trial
repository (src/vector_store.py and the vector-store parts of src/Project.py).

Floating-point values are modelled as exact rationals.  The embedding model
(sentence transformer) is opaque in the source and is threaded through as a
function parameter `encode : String → Vec`.  The FAISS `IndexFlatL2` structure
is an external library; it is modelled here by its documented behaviour
(exact squared-L2 nearest-neighbour search, ties resolved towards the lower
position, missing slots padded with label -1 and a float-max distance),
matching the contract in spec section 4.2.
-/

/-- An embedding vector (one row of a numpy float matrix). -/
abbrev Vec := List ℚ

/-- Squared Euclidean distance, the metric of `faiss.IndexFlatL2`. -/
def sqDist (u v : Vec) : ℚ :=
  (List.zipWith (fun a b => (a - b) ^ 2) u v).sum

/-- Error taxonomy of the embedded operations: `noIndex` models the
`ValueError` raised by `search` when no index exists (and the `TypeError` of
`faiss.write_index(None, ...)`), `dimensionMismatch` the FAISS dimension
assertion, `indexError` a Python `IndexError` on list indexing, and
`persistFailure` an I/O failure while persisting. -/
inductive StoreErr where
  | noIndex
  | dimensionMismatch
  | indexError
  | persistFailure
deriving DecidableEq, Repr

/-- The FAISS flat L2 index: a dimension `d` and the vectors added so far,
in insertion order (external library, modelled from its documented
behaviour / spec section 4.2). -/
structure FaissIndex where
  d : ℕ
  vectors : List Vec
deriving DecidableEq, Repr

/-- The `index.add(embeddings)` call: FAISS asserts the matrix width equals
`d` and otherwise appends all rows in order (all-or-nothing). -/
def FaissIndex.add (idx : FaissIndex) (vs : List Vec) : Except StoreErr FaissIndex :=
  if vs.all (fun v => v.length = idx.d) then
    .ok ⟨idx.d, idx.vectors ++ vs⟩
  else
    .error .dimensionMismatch

/-- Comparison key order used by the k-NN search: ascending distance,
ties resolved towards the lower (earlier-inserted) position. -/
def keyLe (a b : ℕ × ℚ) : Prop :=
  a.2 < b.2 ∨ (a.2 = b.2 ∧ a.1 ≤ b.1)

/-- Strict version of `keyLe`: ascending distance, strictly earlier
position on equal distances. -/
def keyLt (a b : ℕ × ℚ) : Prop :=
  a.2 < b.2 ∨ (a.2 = b.2 ∧ a.1 < b.1)

instance : DecidableRel keyLe := fun _ _ =>
  inferInstanceAs (Decidable (_ ∨ _))

instance : DecidableRel keyLt := fun _ _ =>
  inferInstanceAs (Decidable (_ ∨ _))

instance : IsTotal (ℕ × ℚ) keyLe where
  total a b := by
    rcases lt_trichotomy a.2 b.2 with h | h | h
    · exact Or.inl (Or.inl h)
    · rcases le_total a.1 b.1 with h2 | h2
      · exact Or.inl (Or.inr ⟨h, h2⟩)
      · exact Or.inr (Or.inr ⟨h.symm, h2⟩)
    · exact Or.inr (Or.inl h)

instance : IsTrans (ℕ × ℚ) keyLe where
  trans a b c hab hbc := by
    rcases hab with hab | ⟨hab, hab2⟩
    · rcases hbc with hbc | ⟨hbc, _⟩
      · exact Or.inl (hab.trans hbc)
      · exact Or.inl (hbc ▸ hab)
    · rcases hbc with hbc | ⟨hbc, hbc2⟩
      · exact Or.inl (hab ▸ hbc)
      · exact Or.inr ⟨hab.trans hbc, hab2.trans hbc2⟩

/-- The distance FAISS reports for padded (absent) result slots, i.e. the
float-max filler returned when fewer than `k` vectors exist. -/
def PADDIST : ℚ := 2 ^ 128

/-- The position/distance pairs of all stored vectors for a query. -/
def FaissIndex.distPairs (idx : FaissIndex) (q : Vec) : List (ℕ × ℚ) :=
  (List.range idx.vectors.length).map
    (fun i => (i, sqDist q (idx.vectors.getD i [])))

/-- The `k` nearest stored vectors for query `q`: all position/distance
pairs sorted by ascending distance (ties towards the lower position),
truncated to `k` (external library behaviour, spec section 4.2). -/
def FaissIndex.knn (idx : FaissIndex) (q : Vec) (k : ℕ) : List (ℕ × ℚ) :=
  ((idx.distPairs q).insertionSort keyLe).take k

/-- The `index.search(query, k)` call, flattened to one row: the genuine
neighbours followed by `-1` labels with float-max distances when `k`
exceeds the number of stored vectors. -/
def FaissIndex.searchRaw (idx : FaissIndex) (q : Vec) (k : ℕ) : List (ℤ × ℚ) :=
  (idx.knn q k).map (fun p => ((p.1 : ℤ), p.2))
    ++ List.replicate (k - idx.vectors.length) (-1, PADDIST)

/-- Python list indexing semantics: a negative index counts from the end;
`none` models an `IndexError`. -/
def pyIdx {α : Type} (l : List α) (i : ℤ) : Option α :=
  let j : ℤ := if i < 0 then i + l.length else i
  if j < 0 then none else l.get? j.toNat

/-- A clinical-trial record as consumed by `add_trials` and stored in the
primary store: the fields the vector-store subsystem reads. -/
structure Trial where
  id : String
  title : String
  description : String
  primary_outcome : String
deriving DecidableEq, Repr

/-- The text embedded for a trial: `f"{title} {description} {primary_outcome}"`. -/
def subjectText (t : Trial) : String :=
  t.title ++ " " ++ t.description ++ " " ++ t.primary_outcome

/-- The `TrialVectorStore` object: the embedding dimension reported by the
model, the optional FAISS index, and the parallel list of trial ids. -/
structure TrialVectorStore where
  dimension : ℕ
  index : Option FaissIndex
  trial_ids : List String
deriving DecidableEq, Repr

/-- Number of vectors held by the store's index (0 when no index exists). -/
def indexSize (s : TrialVectorStore) : ℕ :=
  match s.index with
  | none => 0
  | some idx => idx.vectors.length

/-- The dimension the store is bound to: the index's dimension when an
index exists, otherwise the model dimension a created index would get. -/
def boundDim (s : TrialVectorStore) : ℕ :=
  match s.index with
  | none => s.dimension
  | some idx => idx.d

/-- The `create_index` method: installs a fresh empty flat index of the
model's dimension. -/
def TrialVectorStore.create_index (s : TrialVectorStore) : TrialVectorStore :=
  { s with index := some ⟨s.dimension, []⟩ }

/-- The `add_trials` method: build the subject texts and id list, encode the
texts, create the index if absent, add the embedding matrix to the FAISS
index, and only then extend `trial_ids`.  The returned pair is the mutated
object together with the exception it raised, if any: on a FAISS dimension
failure the ids are not extended, but an index created on the way in
remains (as in the Python, where `self.create_index()` has already run). -/
def TrialVectorStore.add_trials (s : TrialVectorStore) (encode : String → Vec)
    (trials : List Trial) : TrialVectorStore × Option StoreErr :=
  let tids := trials.map (fun t => t.id)
  let embeddings := (trials.map subjectText).map encode
  let idx0 : FaissIndex :=
    match s.index with
    | none => ⟨s.dimension, []⟩
    | some i => i
  let s1 := { s with index := some idx0 }
  match idx0.add embeddings with
  | .error e => (s1, some e)
  | .ok idx1 => ({ s1 with index := some idx1, trial_ids := s1.trial_ids ++ tids }, none)

/-- The result-collection loop of `search`: for each `(idx, dist)` row keep
it only when `idx < len(trial_ids)`, and look the id up with Python list
indexing (note `-1` passes the guard and resolves to the last entry);
`none` models the `IndexError` Python would raise on a failed lookup. -/
def collectResults (ids : List String) : List (ℤ × ℚ) → Option (List (String × ℚ))
  | [] => some []
  | (i, dist) :: rest =>
    if i < (ids.length : ℤ) then
      match pyIdx ids i with
      | none => none
      | some tid =>
        (collectResults ids rest).map (fun r => (tid, 1 - dist / 10) :: r)
    else
      collectResults ids rest

/-- The `search` method: `ValueError` when no index exists, empty result
list when `trial_ids` is empty, otherwise encode the query, run the FAISS
search with `min(top_k, len(trial_ids))`, and collect `(trial_id,
1 - distance/10)` pairs for the in-guard rows. -/
def TrialVectorStore.search (s : TrialVectorStore) (encode : String → Vec)
    (query : String) (top_k : ℕ) : Except StoreErr (List (String × ℚ)) :=
  match s.index with
  | none => .error .noIndex
  | some idx =>
    if s.trial_ids.length = 0 then
      .ok []
    else
      let q := encode query
      if q.length ≠ idx.d then
        .error .dimensionMismatch
      else
        match collectResults s.trial_ids (idx.searchRaw q (min top_k s.trial_ids.length)) with
        | none => .error .indexError
        | some out => .ok out

/-- The persisted artifact at a save location: the contents of
`index.faiss` and of `trial_ids.json`. -/
structure Artifact where
  index : FaissIndex
  trial_ids : List String
deriving DecidableEq, Repr

/-- The `save` method, as the artifact it produces: `faiss.write_index`
fails when no index exists, otherwise the vectors and the id list are
written out verbatim. -/
def TrialVectorStore.save (s : TrialVectorStore) : Except StoreErr Artifact :=
  match s.index with
  | none => .error .noIndex
  | some idx => .ok ⟨idx, s.trial_ids⟩

/-- The `load` method: read the index and the id list from the artifact and
install both on the object, replacing whatever was there.  No consistency
check of any kind is performed between the two parts. -/
def TrialVectorStore.loadFrom (s : TrialVectorStore) (a : Artifact) : TrialVectorStore :=
  { s with index := some a.index, trial_ids := a.trial_ids }

/-- The durable state at the save location: the two files `save` writes. -/
structure DiskState where
  indexFile : Option FaissIndex
  idsFile : Option (List String)
deriving DecidableEq, Repr

/-- The sequence of durable states produced while `save` runs on a disk
state `d0`: `faiss.write_index` overwrites `index.faiss` in place, then
`json.dump` overwrites `trial_ids.json` in place — there is no temporary
file and no atomic replace in the source. -/
def saveStates (idx : FaissIndex) (ids : List String) (d0 : DiskState) : List DiskState :=
  [⟨some idx, d0.idsFile⟩, ⟨some idx, some ids⟩]

/-- The `create_trial` route's vector-store tail (src/Project.py lines
179-182): `add_trials([trial_dict])` then `save()`.  `persistOk` models
whether the filesystem write succeeds; the in-memory state returned is
unaffected by the persistence outcome. -/
def create_trial (s : TrialVectorStore) (encode : String → Vec) (trial : Trial)
    (persistOk : Bool) : TrialVectorStore × Except StoreErr Artifact :=
  let r := s.add_trials encode [trial]
  match r.2 with
  | some e => (r.1, .error e)
  | none => (r.1, if persistOk then r.1.save else .error .persistFailure)

/-- The length-parity invariant of spec section 3, as it applies to the
object: with no index the id list is empty, with an index the vector count
equals the id-list length. -/
def parityInv (s : TrialVectorStore) : Prop :=
  match s.index with
  | none => s.trial_ids = []
  | some idx => idx.vectors.length = s.trial_ids.length

instance (s : TrialVectorStore) : Decidable (parityInv s) := by
  unfold parityInv
  cases s.index <;> infer_instance

/-- The result-resolution loop of `semantic_search` (src/Project.py lines
463-485): for each returned trial id look the record up in the primary
store; a record that no longer resolves is skipped, a resolved record is
attached the similarity score of the first search row with that id. -/
def resolveResults (db : String → Option Trial) (results : List (String × ℚ)) :
    List (Trial × ℚ) :=
  results.filterMap (fun r =>
    match db r.1 with
    | none => none
    | some rec =>
      (results.find? (fun r2 => r2.1 = r.1)).map (fun r2 => (rec, r2.2)))

/-! Concrete objects used by counterexamples and witnesses. -/

/-- A store with no index (the state right after `__init__`). -/
def storeNoIdx : TrialVectorStore := ⟨1, none, []⟩

/-- A store with an empty one-dimensional index and an empty ledger. -/
def storeEmptyIdx : TrialVectorStore := ⟨1, some ⟨1, []⟩, []⟩

/-- A store with one indexed vector `[0]` and its trial id. -/
def storeOne : TrialVectorStore := ⟨1, some ⟨1, [[0]]⟩, ["t1"]⟩

/-- A store with two indexed vectors and their two trial ids. -/
def storeTwo : TrialVectorStore := ⟨1, some ⟨1, [[0], [3]]⟩, ["a", "b"]⟩

/-- A corrupt store: two indexed vectors but a one-entry ledger. -/
def storeCorrupt : TrialVectorStore := ⟨1, some ⟨1, [[0], [3]]⟩, ["a"]⟩

/-- A persisted artifact with two vectors but only one ledger entry. -/
def artifactBad : Artifact := ⟨⟨1, [[0], [1]]⟩, ["a"]⟩

/-- A two-vector index used in the persistence scenarios. -/
def idxTwo : FaissIndex := ⟨1, [[0], [1]]⟩

/-- A save location with no artifact yet (first run). -/
def diskEmpty : DiskState := ⟨none, none⟩

/-- An embedder producing the one-dimensional vector `[4]` for every text. -/
def encConst4 : String → Vec := fun _ => [4]

/-- An embedder producing the one-dimensional vector `[0]` for every text. -/
def encConst0 : String → Vec := fun _ => [0]

/-- An embedder producing two-dimensional vectors, mismatching dimension 1. -/
def encConst2d : String → Vec := fun _ => [1, 2]

/-- A concrete trial record. -/
def trialA : Trial := ⟨"a", "tA", "dA", "oA"⟩

/-- A primary store in which only the id `"a"` resolves. -/
def dbOnlyA : String → Option Trial :=
  fun id => if id = "a" then some trialA else none

/-- Two search rows, of which only the first id still resolves. -/
def resultsAB : List (String × ℚ) := [("a", 1), ("b", 0)]

/-! C1: does `load` fail on a vectors/ledger length mismatch? -/

/-- C1 counterexample: loading an artifact holding 2 vectors but a 1-entry
ledger does not fail at all — `load` returns successfully with the
mismatched pair installed, so the claimed `StoreCorrupt` failure does not
happen. -/
theorem load_mismatched_artifact_succeeds :
    indexSize (storeNoIdx.loadFrom artifactBad) = 2 ∧
    (storeNoIdx.loadFrom artifactBad).trial_ids.length = 1 :=
  ⟨rfl, rfl⟩

/-- C1 (amended): `load` performs no consistency validation: it always
succeeds, installing the persisted vectors and ledger verbatim, and a
length mismatch between the two parts survives into the loaded store. -/
theorem load_no_corruption_detection :
    ∀ (s : TrialVectorStore) (a : Artifact),
      indexSize (s.loadFrom a) = a.index.vectors.length ∧
      (s.loadFrom a).trial_ids.length = a.trial_ids.length ∧
      (a.index.vectors.length ≠ a.trial_ids.length →
        indexSize (s.loadFrom a) ≠ (s.loadFrom a).trial_ids.length) :=
  fun _ _ => ⟨rfl, rfl, fun h => h⟩

/-- C1 witness: the amended statement applied to the concrete mismatched
artifact. -/
theorem load_no_corruption_detection_witness :
    indexSize (storeNoIdx.loadFrom artifactBad) ≠
      (storeNoIdx.loadFrom artifactBad).trial_ids.length :=
  (load_no_corruption_detection storeNoIdx artifactBad).2.2 (by decide)

/-! C7: is persistence atomic (temporary file, atomic replace)? -/

/-- C7 counterexample: saving two vectors with ledger `["a", "b"]` onto an
empty location passes through the durable state that holds the new vectors
file but no ledger file — a state equal to neither the pre-operation nor
the post-operation artifact, so the save is not atomic. -/
theorem save_intermediate_state_observable :
    ∃ m ∈ saveStates idxTwo ["a", "b"] diskEmpty,
      m ≠ diskEmpty ∧ m ≠ ⟨some idxTwo, some ["a", "b"]⟩ := by
  refine ⟨⟨some idxTwo, diskEmpty.idsFile⟩, List.mem_cons_self _ _, ?_, ?_⟩
  · intro h
    exact Option.noConfusion (congrArg DiskState.indexFile h)
  · intro h
    exact Option.noConfusion (congrArg DiskState.idsFile h)

/-- C7 (amended): `save` writes the vectors file and then the ledger file
directly at their final locations, with no temporary file and no atomic
replace; whenever both parts change, the durable state after the first
write mixes the new vectors with the old ledger and matches neither the
pre- nor the post-operation artifact. -/
theorem save_not_atomic (idx : FaissIndex) (ids : List String) (d0 : DiskState)
    (h1 : d0.indexFile ≠ some idx) (h2 : d0.idsFile ≠ some ids) :
    ∃ m ∈ saveStates idx ids d0,
      m = ⟨some idx, d0.idsFile⟩ ∧ m ≠ d0 ∧ m ≠ ⟨some idx, some ids⟩ := by
  refine ⟨⟨some idx, d0.idsFile⟩, List.mem_cons_self _ _, rfl, ?_, ?_⟩
  · intro h
    exact h1 (by rw [← h])
  · intro h
    exact h2 (congrArg DiskState.idsFile h)

/-- C7 witness: the amended statement at the concrete first-run location. -/
theorem save_not_atomic_witness :
    ∃ m ∈ saveStates idxTwo ["a", "b"] diskEmpty,
      m = ⟨some idxTwo, diskEmpty.idsFile⟩ ∧
      m ≠ diskEmpty ∧ m ≠ ⟨some idxTwo, some ["a", "b"]⟩ :=
  save_not_atomic idxTwo ["a", "b"] diskEmpty (by decide) (by decide)

/-! C6: querying an empty index returns an empty list, not an error. -/

/-- C6: on a store whose index holds zero vectors (and whose ledger agrees
with it), `search` returns the empty result list and raises no error, for
every query and every `top_k`. -/
theorem search_empty_index (s : TrialVectorStore) (idx : FaissIndex)
    (encode : String → Vec) (q : String) (k : ℕ)
    (hidx : s.index = some idx) (hpar : parityInv s) (hv : idx.vectors = []) :
    s.search encode q k = .ok [] := by
  have hids : s.trial_ids.length = 0 := by
    unfold parityInv at hpar
    rw [hidx] at hpar
    simpa [hv] using hpar.symm
  unfold TrialVectorStore.search
  rw [hidx]
  simp [hids]

/-- C6 witness: the empty store answers an arbitrary query with `[]`. -/
theorem search_empty_index_witness :
    storeEmptyIdx.search encConst4 "anything" 5 = .ok [] :=
  search_empty_index storeEmptyIdx ⟨1, []⟩ encConst4 "anything" 5 rfl (by decide) rfl

/-! C4: save followed by load preserves all search results. -/

/-- C4: loading the artifact produced by `save` yields a store whose
`search` output is identical — same ids, same order, same scores — to the
pre-save store's, for every query, every `top_k`, and every embedder. -/
theorem save_load_round_trip (s t : TrialVectorStore) (a : Artifact)
    (encode : String → Vec) (q : String) (k : ℕ)
    (h : s.save = .ok a) :
    (t.loadFrom a).search encode q k = s.search encode q k := by
  unfold TrialVectorStore.save at h
  cases hidx : s.index with
  | none =>
    rw [hidx] at h
    exact absurd h (by simp)
  | some idx =>
    rw [hidx] at h
    have ha : a = ⟨idx, s.trial_ids⟩ := by
      cases h
      rfl
    subst ha
    simp [TrialVectorStore.search, TrialVectorStore.loadFrom, hidx]

/-- C4 witness: round trip on the concrete two-trial store. -/
theorem save_load_round_trip_witness :
    (storeNoIdx.loadFrom ⟨⟨1, [[0], [3]]⟩, ["a", "b"]⟩).search encConst4 "obesity" 2 =
      storeTwo.search encConst4 "obesity" 2 :=
  save_load_round_trip storeTwo storeNoIdx ⟨⟨1, [[0], [3]]⟩, ["a", "b"]⟩
    encConst4 "obesity" 2 rfl

/-! C2: length parity after batch insert, incremental append, and load. -/

/-- Parity is preserved by `add_trials`, on the success path and on the
dimension-failure path alike. -/
theorem add_trials_parity (s : TrialVectorStore) (encode : String → Vec)
    (trials : List Trial) (h : parityInv s) :
    parityInv (s.add_trials encode trials).1 := by
  unfold parityInv at h
  cases hix : s.index with
  | none =>
    rw [hix] at h
    simp only [TrialVectorStore.add_trials, FaissIndex.add, hix]
    split_ifs with hall
    · simp [parityInv, h]
    · simp [parityInv, h]
  | some idx =>
    rw [hix] at h
    simp only [TrialVectorStore.add_trials, FaissIndex.add, hix]
    split_ifs with hall
    · simp [parityInv, h]
    · simp [parityInv, h]

/-- C2: after a completed batch insert, after loading an artifact produced
by `save`, and after the `create_trial` append — whether or not the
persistence step succeeds — the index vector count equals the ledger
length. -/
theorem store_ops_preserve_parity
    (s t : TrialVectorStore) (encode : String → Vec) (trials : List Trial)
    (trial : Trial) (persistOk : Bool) (h : parityInv s) :
    parityInv (s.add_trials encode trials).1 ∧
    (∀ a, s.save = .ok a → parityInv (t.loadFrom a)) ∧
    parityInv (create_trial s encode trial persistOk).1 := by
  refine ⟨add_trials_parity s encode trials h, ?_, ?_⟩
  · intro a ha
    unfold TrialVectorStore.save at ha
    cases hix : s.index with
    | none =>
      rw [hix] at ha
      exact absurd ha (by simp)
    | some idx =>
      rw [hix] at ha
      cases ha
      unfold parityInv at h ⊢
      rw [hix] at h
      simpa [TrialVectorStore.loadFrom] using h
  · have hstate : (create_trial s encode trial persistOk).1 =
        (s.add_trials encode [trial]).1 := by
      unfold create_trial
      cases hr : (s.add_trials encode [trial]).2 <;> simp [hr]
    rw [hstate]
    exact add_trials_parity s encode [trial] h

/-- C2 witness: the parity statement at a concrete two-trial store, with
the persistence step forced to fail. -/
theorem store_ops_preserve_parity_witness :
    parityInv (storeTwo.add_trials encConst4 [trialA]).1 ∧
    (∀ a, storeTwo.save = .ok a → parityInv (storeNoIdx.loadFrom a)) ∧
    parityInv (create_trial storeTwo encConst4 trialA false).1 :=
  store_ops_preserve_parity storeTwo storeNoIdx encConst4 [trialA] trialA false
    (by decide)

/-! C8: wrong-dimension insertion fails and changes nothing. -/

/-- C8: a batch containing an embedding whose length differs from the
store's bound dimension makes `add_trials` fail with the dimension
mismatch, and both the index vector count and the ledger are exactly as
before the call. -/
theorem add_trials_wrong_dimension
    (s : TrialVectorStore) (encode : String → Vec) (trials : List Trial)
    (hbad : ∃ v ∈ (trials.map subjectText).map encode, v.length ≠ boundDim s) :
    (s.add_trials encode trials).2 = some .dimensionMismatch ∧
    indexSize (s.add_trials encode trials).1 = indexSize s ∧
    (s.add_trials encode trials).1.trial_ids = s.trial_ids := by
  obtain ⟨v, hv, hlen⟩ := hbad
  cases hix : s.index with
  | none =>
    have hd : boundDim s = s.dimension := by
      unfold boundDim
      rw [hix]
    rw [hd] at hlen
    have hcond : ¬ (((trials.map subjectText).map encode).all
        (fun w => w.length = (⟨s.dimension, []⟩ : FaissIndex).d) = true) := by
      intro hall
      exact hlen (by simpa using List.all_eq_true.mp hall v hv)
    simp only [TrialVectorStore.add_trials, FaissIndex.add, hix, if_neg hcond]
    simp [indexSize, hix]
  | some idx =>
    have hd : boundDim s = idx.d := by
      unfold boundDim
      rw [hix]
    rw [hd] at hlen
    have hcond : ¬ (((trials.map subjectText).map encode).all
        (fun w => w.length = idx.d) = true) := by
      intro hall
      exact hlen (by simpa using List.all_eq_true.mp hall v hv)
    simp only [TrialVectorStore.add_trials, FaissIndex.add, hix, if_neg hcond]
    simp [indexSize, hix]

/-- C8 witness: inserting a two-dimensional embedding into a store bound to
dimension 1 fails with the mismatch and leaves the lengths unchanged. -/
theorem add_trials_wrong_dimension_witness :
    (storeNoIdx.add_trials encConst2d [trialA]).2 = some .dimensionMismatch ∧
    indexSize (storeNoIdx.add_trials encConst2d [trialA]).1 = indexSize storeNoIdx ∧
    (storeNoIdx.add_trials encConst2d [trialA]).1.trial_ids = storeNoIdx.trial_ids :=
  add_trials_wrong_dimension storeNoIdx encConst2d [trialA]
    ⟨[1, 2], by simp [encConst2d], by decide⟩

/-! C9: unresolvable identifiers are silently skipped during a query. -/

/-- Auxiliary step for the resolution loop: over any sublist of the search
rows the loop keeps exactly the rows whose id still resolves. -/
theorem resolveResults_length_aux (db : String → Option Trial)
    (results : List (String × ℚ)) :
    ∀ l : List (String × ℚ), (∀ r ∈ l, r ∈ results) →
      (l.filterMap (fun r =>
        match db r.1 with
        | none => none
        | some rec =>
          (results.find? (fun r2 => r2.1 = r.1)).map (fun r2 => (rec, r2.2)))).length
        = l.countP (fun r => (db r.1).isSome) := by
  intro l
  induction l with
  | nil => intro _; rfl
  | cons r l ih =>
    intro hsub
    have hr : r ∈ results := hsub r (List.mem_cons_self r l)
    have hl : ∀ x ∈ l, x ∈ results := fun x hx => hsub x (List.mem_cons_of_mem r hx)
    cases hdb : db r.1 with
    | none =>
      simp [List.filterMap_cons, List.countP_cons, hdb, ih hl]
    | some rec =>
      have hfind : (results.find? (fun r2 => r2.1 = r.1)).isSome := by
        rw [List.find?_isSome]
        exact ⟨r, hr, by simp⟩
      obtain ⟨r2, hr2⟩ := Option.isSome_iff_exists.mp hfind
      simp [List.filterMap_cons, List.countP_cons, hdb, hr2, ih hl]

/-- C9: the resolution loop of `semantic_search` keeps exactly the rows
whose identifier still resolves in the primary store — an unresolvable
identifier is silently omitted, never turned into a failure, and every
record in the output comes from a resolvable search row. -/
theorem semantic_search_skips_unresolved
    (db : String → Option Trial) (results : List (String × ℚ)) :
    (resolveResults db results).length =
      results.countP (fun r => (db r.1).isSome) ∧
    ∀ p ∈ resolveResults db results, ∃ r ∈ results, db r.1 = some p.1 := by
  constructor
  · exact resolveResults_length_aux db results results (fun _ h => h)
  · intro p hp
    unfold resolveResults at hp
    obtain ⟨r, hr, hfr⟩ := List.mem_filterMap.mp hp
    refine ⟨r, hr, ?_⟩
    cases hdb : db r.1 with
    | none => rw [hdb] at hfr; exact absurd hfr (by simp)
    | some rec =>
      rw [hdb] at hfr
      obtain ⟨r2, _, hpr⟩ := Option.map_eq_some'.mp hfr
      rw [← hpr]

/-- C9 witness: the resolution statement at two concrete rows of which only
the first resolves. -/
theorem semantic_search_skips_unresolved_witness :
    (resolveResults dbOnlyA resultsAB).length =
      resultsAB.countP (fun r => (dbOnlyA r.1).isSome) ∧
    ∀ p ∈ resolveResults dbOnlyA resultsAB, ∃ r ∈ resultsAB, dbOnlyA r.1 = some p.1 :=
  semantic_search_skips_unresolved dbOnlyA resultsAB

/-! Infrastructure for the search-path claims (C3, C5, C10). -/

/-- A successful Python lookup lands on a genuine in-range position. -/
theorem pyIdx_eq_some {α : Type} {l : List α} {i : ℤ} {x : α}
    (h : pyIdx l i = some x) :
    ∃ n, ∃ hn : n < l.length, l.get ⟨n, hn⟩ = x := by
  unfold pyIdx at h
  by_cases hneg : (if i < 0 then i + l.length else i) < 0
  · rw [if_pos hneg] at h
    exact absurd h (by simp)
  · rw [if_neg hneg] at h
    obtain ⟨hn, hget⟩ := List.get?_eq_some.mp h
    exact ⟨_, hn, hget⟩

/-- A Python lookup succeeds for every index FAISS can emit, once the
ledger is non-empty and the guard has passed. -/
theorem pyIdx_isSome {α : Type} {l : List α} {i : ℤ}
    (hguard : i < (l.length : ℤ)) (hkind : i = -1 ∨ 0 ≤ i)
    (hne : 1 ≤ l.length) :
    ∃ x, pyIdx l i = some x := by
  unfold pyIdx
  rcases hkind with rfl | hpos
  · have h0 : (-1 : ℤ) < 0 := by norm_num
    simp only [if_pos h0]
    have h1 : ¬ ((-1 + (l.length : ℤ)) < 0) := by omega
    rw [if_neg h1]
    have h2 : (-1 + (l.length : ℤ)).toNat < l.length := by omega
    exact ⟨_, List.get?_eq_get h2⟩
  · have h0 : ¬ (i < 0) := by omega
    simp only [if_neg h0]
    have h2 : i.toNat < l.length := by omega
    exact ⟨_, List.get?_eq_get h2⟩

/-- Every row the collection loop emits comes from a raw FAISS row that
passed the guard, with the id obtained by the Python lookup and the score
computed as `1 - distance/10`. -/
theorem collectResults_spec {ids : List String} :
    ∀ {raw : List (ℤ × ℚ)} {out : List (String × ℚ)},
      collectResults ids raw = some out →
      ∀ p ∈ out, ∃ e ∈ raw, e.1 < (ids.length : ℤ) ∧
        pyIdx ids e.1 = some p.1 ∧ p.2 = 1 - e.2 / 10 := by
  intro raw
  induction raw with
  | nil =>
    intro out h p hp
    simp only [collectResults, Option.some.injEq] at h
    subst h
    exact absurd hp (List.not_mem_nil p)
  | cons e rest ih =>
    obtain ⟨i, dist⟩ := e
    intro out h p hp
    by_cases hguard : i < (ids.length : ℤ)
    · simp only [collectResults, if_pos hguard] at h
      cases hpy : pyIdx ids i with
      | none =>
        rw [hpy] at h
        exact absurd h (by simp)
      | some tid =>
        rw [hpy] at h
        obtain ⟨out2, hout2, hcons⟩ := Option.map_eq_some'.mp h
        subst hcons
        rcases List.mem_cons.mp hp with rfl | hp2
        · exact ⟨(i, dist), List.mem_cons_self _ _, hguard, hpy, rfl⟩
        · obtain ⟨e, he, h1, h2, h3⟩ := ih hout2 p hp2
          exact ⟨e, List.mem_cons_of_mem _ he, h1, h2, h3⟩
    · simp only [collectResults, if_neg hguard] at h
      obtain ⟨e, he, h1, h2, h3⟩ := ih h p hp
      exact ⟨e, List.mem_cons_of_mem _ he, h1, h2, h3⟩

/-- The collection loop emits exactly one row per raw FAISS row that
passes the `idx < len(trial_ids)` guard: rows at or beyond the ledger
length are dropped. -/
theorem collectResults_length {ids : List String} :
    ∀ {raw : List (ℤ × ℚ)} {out : List (String × ℚ)},
      collectResults ids raw = some out →
      out.length = raw.countP (fun e => decide (e.1 < (ids.length : ℤ))) := by
  intro raw
  induction raw with
  | nil =>
    intro out h
    simp only [collectResults, Option.some.injEq] at h
    subst h
    rfl
  | cons e rest ih =>
    obtain ⟨i, dist⟩ := e
    intro out h
    by_cases hguard : i < (ids.length : ℤ)
    · simp only [collectResults, if_pos hguard] at h
      cases hpy : pyIdx ids i with
      | none =>
        rw [hpy] at h
        exact absurd h (by simp)
      | some tid =>
        rw [hpy] at h
        obtain ⟨out2, hout2, hcons⟩ := Option.map_eq_some'.mp h
        subst hcons
        simp [List.countP_cons, hguard, ih hout2]
    · simp only [collectResults, if_neg hguard] at h
      simp [List.countP_cons, hguard, ih h]

/-- The collection loop never hits an `IndexError` when the ledger is
non-empty and every raw row is a genuine position or the `-1` filler. -/
theorem collectResults_total {ids : List String} (hne : 1 ≤ ids.length) :
    ∀ raw : List (ℤ × ℚ), (∀ e ∈ raw, e.1 = -1 ∨ 0 ≤ e.1) →
      ∃ out, collectResults ids raw = some out := by
  intro raw
  induction raw with
  | nil =>
    intro _
    exact ⟨[], rfl⟩
  | cons e rest ih =>
    obtain ⟨i, dist⟩ := e
    intro hall
    obtain ⟨out2, hout2⟩ := ih (fun e he => hall e (List.mem_cons_of_mem _ he))
    by_cases hguard : i < (ids.length : ℤ)
    · obtain ⟨tid, htid⟩ :=
        pyIdx_isSome hguard (hall (i, dist) (List.mem_cons_self _ _)) hne
      refine ⟨(tid, 1 - dist / 10) :: out2, ?_⟩
      simp only [collectResults, if_pos hguard, htid, hout2, Option.map_some']
    · refine ⟨out2, ?_⟩
      simp only [collectResults, if_neg hguard, hout2]

/-- Running the loop on genuine in-range positions keeps every row, in
order, resolving each position in the ledger. -/
theorem collectResults_genuine (ids : List String) :
    ∀ l : List (ℕ × ℚ), (∀ p ∈ l, p.1 < ids.length) →
      collectResults ids (l.map (fun p => ((p.1 : ℤ), p.2))) =
        some (l.map (fun p => (ids.getD p.1 "", 1 - p.2 / 10))) := by
  intro l
  induction l with
  | nil =>
    intro _
    rfl
  | cons p l ih =>
    intro hall
    obtain ⟨i, dist⟩ := p
    have hi : i < ids.length := hall (i, dist) (List.mem_cons_self _ _)
    have hguard : (i : ℤ) < (ids.length : ℤ) := by exact_mod_cast hi
    have hpy : pyIdx ids (i : ℤ) = some (ids.getD i "") := by
      unfold pyIdx
      have h0 : ¬ ((i : ℤ) < 0) := by omega
      simp only [if_neg h0, Int.toNat_ofNat]
      rw [List.get?_eq_get hi, List.getD_eq_get ids "" hi]
    simp only [List.map_cons, collectResults, if_pos hguard, hpy,
      ih (fun p hp => hall p (List.mem_cons_of_mem _ hp)), Option.map_some']

/-- Every k-NN result is a genuine stored position with its true squared
distance to the query. -/
theorem knn_mem {idx : FaissIndex} {q : Vec} {k : ℕ} {p : ℕ × ℚ}
    (hp : p ∈ idx.knn q k) :
    p.1 < idx.vectors.length ∧ p.2 = sqDist q (idx.vectors.getD p.1 []) := by
  unfold FaissIndex.knn at hp
  have hp2 : p ∈ (idx.distPairs q).insertionSort keyLe :=
    List.mem_of_mem_take hp
  have hp3 : p ∈ idx.distPairs q :=
    (List.perm_insertionSort keyLe _).mem_iff.mp hp2
  unfold FaissIndex.distPairs at hp3
  obtain ⟨i, hi, rfl⟩ := List.mem_map.mp hp3
  exact ⟨List.mem_range.mp hi, rfl⟩

/-- Every raw FAISS search row is either a genuine position with its true
distance, or the `-1`/float-max filler. -/
theorem searchRaw_mem {idx : FaissIndex} {q : Vec} {k : ℕ} :
    ∀ e ∈ idx.searchRaw q k,
      (∃ j, j < idx.vectors.length ∧
        e = ((j : ℤ), sqDist q (idx.vectors.getD j []))) ∨
      e = (-1, PADDIST) := by
  intro e he
  unfold FaissIndex.searchRaw at he
  rcases List.mem_append.mp he with h | h
  · left
    obtain ⟨p, hp, rfl⟩ := List.mem_map.mp h
    obtain ⟨hlt, hdist⟩ := knn_mem hp
    exact ⟨p.1, hlt, by rw [hdist]⟩
  · right
    exact List.eq_of_mem_replicate h

/-- The k-NN list has exactly `min k n` entries. -/
theorem knn_length (idx : FaissIndex) (q : Vec) (k : ℕ) :
    (idx.knn q k).length = min k idx.vectors.length := by
  unfold FaissIndex.knn
  rw [List.length_take, (List.perm_insertionSort keyLe _).length_eq]
  unfold FaissIndex.distPairs
  rw [List.length_map, List.length_range]

/-- The k-NN list is sorted under the distance-then-position order. -/
theorem knn_sorted (idx : FaissIndex) (q : Vec) (k : ℕ) :
    List.Pairwise keyLe (idx.knn q k) := by
  unfold FaissIndex.knn
  exact (List.sorted_insertionSort keyLe _).sublist (List.take_sublist _ _)

/-- The positions in the k-NN list are pairwise distinct. -/
theorem knn_nodup_fst (idx : FaissIndex) (q : Vec) (k : ℕ) :
    ((idx.knn q k).map Prod.fst).Nodup := by
  have h1 : (idx.distPairs q).map Prod.fst = List.range idx.vectors.length := by
    unfold FaissIndex.distPairs
    rw [List.map_map]
    exact List.map_id _
  have h2 : (((idx.distPairs q).insertionSort keyLe).map Prod.fst).Nodup := by
    have hperm := ((List.perm_insertionSort keyLe (idx.distPairs q)).map Prod.fst)
    rw [hperm.nodup_iff, h1]
    exact List.nodup_range _
  unfold FaissIndex.knn
  rw [List.map_take]
  exact h2.sublist (List.take_sublist _ _)

/-- The k-NN list is strictly increasing under the distance-then-position
order: ascending distance, and on equal distances the earlier-inserted
position comes first. -/
theorem knn_pairwise_strict (idx : FaissIndex) (q : Vec) (k : ℕ) :
    List.Pairwise keyLt (idx.knn q k) := by
  have hs := knn_sorted idx q k
  have hne : List.Pairwise (fun a b : ℕ × ℚ => a.1 ≠ b.1) (idx.knn q k) :=
    List.pairwise_map.mp (knn_nodup_fst idx q k)
  refine (hs.and hne).imp ?_
  rintro a b ⟨hle, hab⟩
  rcases hle with h | ⟨h1, h2⟩
  · exact Or.inl h
  · exact Or.inr ⟨h1, lt_of_le_of_ne h2 hab⟩

/-- The k-NN list is minimal: every stored position it leaves out is at
least as far (in the tie-breaking order) as every position it returns. -/
theorem knn_minimal (idx : FaissIndex) (q : Vec) (k : ℕ) :
    ∀ p ∈ idx.knn q k, ∀ j < idx.vectors.length,
      (j, sqDist q (idx.vectors.getD j [])) ∉ idx.knn q k →
      keyLe p (j, sqDist q (idx.vectors.getD j [])) := by
  intro p hp j hj hnot
  have hsorted : List.Pairwise keyLe ((idx.distPairs q).insertionSort keyLe) :=
    List.sorted_insertionSort keyLe _
  have hsplit :
      ((idx.distPairs q).insertionSort keyLe).take k ++
        ((idx.distPairs q).insertionSort keyLe).drop k =
      (idx.distPairs q).insertionSort keyLe :=
    List.take_append_drop k _
  have hpw := (List.pairwise_append.mp (hsplit ▸ hsorted)).2.2
  have hjmem : (j, sqDist q (idx.vectors.getD j [])) ∈
      (idx.distPairs q).insertionSort keyLe := by
    rw [(List.perm_insertionSort keyLe _).mem_iff]
    unfold FaissIndex.distPairs
    exact List.mem_map.mpr ⟨j, List.mem_range.mpr hj, rfl⟩
  have hjdrop : (j, sqDist q (idx.vectors.getD j [])) ∈
      ((idx.distPairs q).insertionSort keyLe).drop k := by
    rcases List.mem_append.mp (hsplit ▸ hjmem) with h | h
    · exact absurd h hnot
    · exact h
  exact hpw p hp _ hjdrop

/-! C10: search never resolves an out-of-range ledger position. -/

/-- C10: for every store state — the ledger may be shorter or longer than
the index, as after loading a corrupt artifact — `search` completes
without an out-of-range ledger access: every returned trial id is the
ledger entry at a genuine in-range position, and the output has exactly
one row per raw FAISS row whose position passed the
`idx < len(trial_ids)` guard (positions at or beyond the ledger length
are silently dropped). -/
theorem search_never_out_of_range (s : TrialVectorStore) (idx : FaissIndex)
    (encode : String → Vec) (q : String) (k : ℕ)
    (hidx : s.index = some idx) (hdim : (encode q).length = idx.d) :
    ∃ out, s.search encode q k = .ok out ∧
      (∀ p ∈ out, ∃ i, ∃ hi : i < s.trial_ids.length,
        s.trial_ids.get ⟨i, hi⟩ = p.1) ∧
      out.length = (idx.searchRaw (encode q) (min k s.trial_ids.length)).countP
        (fun e => decide (e.1 < (s.trial_ids.length : ℤ))) := by
  by_cases hlen : s.trial_ids.length = 0
  · refine ⟨[], ?_, ?_, ?_⟩
    · simp [TrialVectorStore.search, hidx, hlen]
    · intro p hp
      exact absurd hp (List.not_mem_nil p)
    · have hraw : idx.searchRaw (encode q) (min k s.trial_ids.length) = [] := by
        rw [hlen]
        simp [FaissIndex.searchRaw, FaissIndex.knn]
      rw [hraw]
      rfl
  · have h1 : 1 ≤ s.trial_ids.length := Nat.one_le_iff_ne_zero.mpr hlen
    have hall : ∀ e ∈ idx.searchRaw (encode q) (min k s.trial_ids.length),
        e.1 = -1 ∨ 0 ≤ e.1 := by
      intro e he
      rcases searchRaw_mem e he with ⟨j, _, rfl⟩ | rfl
      · right
        exact Int.ofNat_nonneg j
      · left
        rfl
    obtain ⟨out, hout⟩ := collectResults_total h1 _ hall
    refine ⟨out, ?_, ?_, collectResults_length hout⟩
    · simp only [TrialVectorStore.search, hidx]
      rw [if_neg hlen, if_neg (fun hc => hc hdim), hout]
    · intro p hp
      obtain ⟨e, _, _, hpy, _⟩ := collectResults_spec hout p hp
      exact pyIdx_eq_some hpy

/-- C10 witness: the safety statement on the corrupt store whose index
holds two vectors but whose ledger has one entry. -/
theorem search_never_out_of_range_witness :
    ∃ out, storeCorrupt.search encConst0 "anything" 5 = .ok out ∧
      (∀ p ∈ out, ∃ i, ∃ hi : i < storeCorrupt.trial_ids.length,
        storeCorrupt.trial_ids.get ⟨i, hi⟩ = p.1) ∧
      out.length = ((⟨1, [[0], [3]]⟩ : FaissIndex).searchRaw (encConst0 "anything")
          (min 5 storeCorrupt.trial_ids.length)).countP
        (fun e => decide (e.1 < (storeCorrupt.trial_ids.length : ℤ))) :=
  search_never_out_of_range storeCorrupt ⟨1, [[0], [3]]⟩ encConst0 "anything" 5
    rfl rfl

/-! C5: the similarity score is exactly `1 - distance/10`, unbounded below. -/

/-- Concrete evaluation: querying the one-vector store with an embedder at
distance 16 returns the single trial with score `1 - 16/10`. -/
theorem storeOne_search_eval :
    storeOne.search encConst4 "far" 1 =
      .ok [("t1", 1 - sqDist (encConst4 "far") [0] / 10)] := rfl

/-- The concrete score `1 - 16/10` is negative, outside `[0, 1]`. -/
theorem storeOne_score_neg :
    (1 : ℚ) - sqDist (encConst4 "far") [0] / 10 < 0 := by
  norm_num [sqDist, encConst4]

/-- C5: every similarity score `search` reports is exactly `1` minus the
raw squared Euclidean distance divided by `10` (for a padded row, the
FAISS filler distance), and the score is not confined to `[0, 1]`: a
concrete query at squared distance 16 yields the negative score
`1 - 16/10`. -/
theorem search_score_affine :
    (∀ (s : TrialVectorStore) (idx : FaissIndex) (encode : String → Vec)
        (q : String) (k : ℕ) (out : List (String × ℚ)),
        s.index = some idx → s.search encode q k = .ok out →
        ∀ p ∈ out,
          (∃ j < idx.vectors.length,
            p.2 = 1 - sqDist (encode q) (idx.vectors.getD j []) / 10) ∨
          p.2 = 1 - PADDIST / 10) ∧
    (∃ out, storeOne.search encConst4 "far" 1 = .ok out ∧
      ∃ p ∈ out, p.2 < 0) := by
  constructor
  · intro s idx encode q k out hidx hok p hp
    unfold TrialVectorStore.search at hok
    rw [hidx] at hok
    simp only at hok
    by_cases hlen : s.trial_ids.length = 0
    · rw [if_pos hlen] at hok
      obtain rfl : ([] : List (String × ℚ)) = out := by
        cases hok
        rfl
      exact absurd hp (List.not_mem_nil p)
    · rw [if_neg hlen] at hok
      by_cases hdim : (encode q).length ≠ idx.d
      · rw [if_pos hdim] at hok
        exact absurd hok (by simp)
      · rw [if_neg hdim] at hok
        cases hcr : collectResults s.trial_ids
            (idx.searchRaw (encode q) (min k s.trial_ids.length)) with
        | none =>
          rw [hcr] at hok
          exact absurd hok (by simp)
        | some out0 =>
          rw [hcr] at hok
          obtain rfl : out0 = out := by
            cases hok
            rfl
          obtain ⟨e, he, _, _, hscore⟩ := collectResults_spec hcr p hp
          rcases searchRaw_mem e he with ⟨j, hj, rfl⟩ | rfl
          · exact Or.inl ⟨j, hj, by simpa using hscore⟩
          · exact Or.inr (by simpa using hscore)
  · exact ⟨[("t1", 1 - sqDist (encConst4 "far") [0] / 10)], storeOne_search_eval,
      ("t1", 1 - sqDist (encConst4 "far") [0] / 10),
      List.mem_singleton.mpr rfl, storeOne_score_neg⟩

/-- C5 witness: the scoring formula applied on the concrete one-vector
store, together with the concrete out-of-range score. -/
theorem search_score_affine_witness :
    (∀ p ∈ [("t1", 1 - sqDist (encConst4 "far") [0] / 10)],
      (∃ j < (⟨1, [[0]]⟩ : FaissIndex).vectors.length,
        p.2 = 1 - sqDist (encConst4 "far")
          ((⟨1, [[0]]⟩ : FaissIndex).vectors.getD j []) / 10) ∨
      p.2 = 1 - PADDIST / 10) ∧
    (1 : ℚ) - sqDist (encConst4 "far") [0] / 10 < 0 :=
  ⟨search_score_affine.1 storeOne ⟨1, [[0]]⟩ encConst4 "far" 1 _ rfl
      storeOne_search_eval,
    storeOne_score_neg⟩

/-! C3: search returns the min(k, n) nearest neighbours in order. -/

/-- C3: on a well-formed non-empty store, `search` succeeds and returns
exactly `min k n` rows.  The rows are the image of the k-NN position list:
that list is strictly increasing under ascending squared distance with
ties resolved towards the earlier-inserted position, it is minimal (every
stored position left out is at least as far), each row's id is the ledger
entry at its position, and the emitted similarity scores are
correspondingly non-increasing. -/
theorem search_ranked (s : TrialVectorStore) (idx : FaissIndex)
    (encode : String → Vec) (q : String) (k : ℕ)
    (hidx : s.index = some idx)
    (hpar : idx.vectors.length = s.trial_ids.length)
    (hne : idx.vectors ≠ [])
    (_hk : 1 ≤ k)
    (hdim : (encode q).length = idx.d) :
    ∃ out, s.search encode q k = .ok out ∧
      out.length = min k idx.vectors.length ∧
      out = (idx.knn (encode q) (min k idx.vectors.length)).map
        (fun p => (s.trial_ids.getD p.1 "", 1 - p.2 / 10)) ∧
      List.Pairwise keyLt (idx.knn (encode q) (min k idx.vectors.length)) ∧
      (∀ p ∈ idx.knn (encode q) (min k idx.vectors.length),
        ∀ j < idx.vectors.length,
          (j, sqDist (encode q) (idx.vectors.getD j [])) ∉
            idx.knn (encode q) (min k idx.vectors.length) →
          keyLe p (j, sqDist (encode q) (idx.vectors.getD j []))) ∧
      List.Pairwise (fun a b : String × ℚ => b.2 ≤ a.2) out := by
  have hlen0 : s.trial_ids.length ≠ 0 := by
    rw [← hpar]
    exact (List.length_pos.mpr hne).ne'
  have hmin : min k s.trial_ids.length = min k idx.vectors.length := by
    rw [hpar]
  have hraw : idx.searchRaw (encode q) (min k s.trial_ids.length) =
      (idx.knn (encode q) (min k idx.vectors.length)).map
        (fun p => ((p.1 : ℤ), p.2)) := by
    unfold FaissIndex.searchRaw
    rw [hmin, Nat.sub_eq_zero_of_le (min_le_right k idx.vectors.length)]
    simp
  have hmem : ∀ p ∈ idx.knn (encode q) (min k idx.vectors.length),
      p.1 < s.trial_ids.length := fun p hp => hpar ▸ (knn_mem hp).1
  have hcollect := collectResults_genuine s.trial_ids _ hmem
  refine ⟨(idx.knn (encode q) (min k idx.vectors.length)).map
      (fun p => (s.trial_ids.getD p.1 "", 1 - p.2 / 10)), ?_, ?_, rfl,
      knn_pairwise_strict idx (encode q) (min k idx.vectors.length),
      knn_minimal idx (encode q) (min k idx.vectors.length), ?_⟩
  · unfold TrialVectorStore.search
    rw [hidx]
    simp only
    rw [if_neg hlen0, if_neg (fun hc => hc hdim), hraw, hcollect]
  · rw [List.length_map, knn_length,
      min_eq_left (min_le_right k idx.vectors.length)]
  · rw [List.pairwise_map]
    refine (knn_pairwise_strict idx (encode q) (min k idx.vectors.length)).imp ?_
    intro a b hab
    have hd : a.2 ≤ b.2 := by
      rcases hab with h | ⟨h, _⟩
      · exact le_of_lt h
      · exact le_of_eq h
    have h10 : a.2 / 10 ≤ b.2 / 10 :=
      (div_le_div_right (by norm_num : (0 : ℚ) < 10)).mpr hd
    exact sub_le_sub_left h10 1

/-- C3 witness: the ranking statement on the concrete two-vector store
with `k = 2`. -/
theorem search_ranked_witness :
    ∃ out, storeTwo.search encConst4 "obesity" 2 = .ok out ∧
      out.length = min 2 (⟨1, [[0], [3]]⟩ : FaissIndex).vectors.length ∧
      out = ((⟨1, [[0], [3]]⟩ : FaissIndex).knn (encConst4 "obesity")
          (min 2 (⟨1, [[0], [3]]⟩ : FaissIndex).vectors.length)).map
        (fun p => (storeTwo.trial_ids.getD p.1 "", 1 - p.2 / 10)) ∧
      List.Pairwise keyLt ((⟨1, [[0], [3]]⟩ : FaissIndex).knn (encConst4 "obesity")
        (min 2 (⟨1, [[0], [3]]⟩ : FaissIndex).vectors.length)) ∧
      (∀ p ∈ (⟨1, [[0], [3]]⟩ : FaissIndex).knn (encConst4 "obesity")
          (min 2 (⟨1, [[0], [3]]⟩ : FaissIndex).vectors.length),
        ∀ j < (⟨1, [[0], [3]]⟩ : FaissIndex).vectors.length,
          (j, sqDist (encConst4 "obesity")
            ((⟨1, [[0], [3]]⟩ : FaissIndex).vectors.getD j [])) ∉
            (⟨1, [[0], [3]]⟩ : FaissIndex).knn (encConst4 "obesity")
              (min 2 (⟨1, [[0], [3]]⟩ : FaissIndex).vectors.length) →
          keyLe p (j, sqDist (encConst4 "obesity")
            ((⟨1, [[0], [3]]⟩ : FaissIndex).vectors.getD j []))) ∧
      List.Pairwise (fun a b : String × ℚ => b.2 ≤ a.2) out :=
  search_ranked storeTwo ⟨1, [[0], [3]]⟩ encConst4 "obesity" 2
    rfl rfl (by decide) (by decide) rfl
